import Mathlib

set_option linter.unusedVariables false

/-!
Shallow embedding of the jj-analyze expression model (src/expr.rs, src/tree.rs,
src/parse.rs): the `Expr`/`Predicate` trees, their import from the external
resolved expression, the context/cost analysis, and the reference table.
Machine integers (u32/u64/usize) are modelled as `Nat`; the payloads of the
external pattern types (strings, paths, pre-formatted dates) are `String`.
-/

namespace JjAnalyze

/-- Cost classification (tree.rs, `AnalyzeCost`). -/
inductive AnalyzeCost where
  | fast
  | slow
deriving DecidableEq, Repr

/-- Evaluation context (tree.rs, `AnalyzeContext`). -/
inductive AnalyzeContext where
  | eager
  | lazy
  | predicate
  | resolved
deriving DecidableEq, Repr

/-- tree.rs `AnalyzeContext::predicate_to_lazy`. -/
def AnalyzeContext.predicate_to_lazy : AnalyzeContext → AnalyzeContext
  | .predicate => .lazy
  | other => other

/-- tree.rs `AnalyzeContext::eager_to_lazy`. -/
def AnalyzeContext.eager_to_lazy : AnalyzeContext → AnalyzeContext
  | .eager => .lazy
  | other => other

/-- Rust `Range<u64>` / `Range<u32>` with `Nat` endpoints.  The Rust field
`end` is called `stop` here because `end` is a reserved word in Lean. -/
structure NatRange where
  start : Nat
  stop : Nat
deriving DecidableEq, Repr

/-- Largest u64 value. -/
def u64Max : Nat := 2 ^ 64 - 1

/-- Largest u32 value. -/
def u32Max : Nat := 2 ^ 32 - 1

/-- jj_lib `GENERATION_RANGE_FULL` = `0..u64::MAX`. -/
def GENERATION_RANGE_FULL : NatRange := ⟨0, u64Max⟩

/-- jj_lib `PARENTS_RANGE_FULL` = `0..u32::MAX`. -/
def PARENTS_RANGE_FULL : NatRange := ⟨0, u32Max⟩

/-- expr.rs `ResolvedReference`: an immutable display string. -/
abbrev ResolvedReference := String

/-- expr.rs `ResolvedReference::root()`. -/
def ResolvedReference.root : ResolvedReference := "root()"

/-- expr.rs `ResolvedReference::visible_heads()`. -/
def ResolvedReference.visible_heads : ResolvedReference := "visible_heads()"

/-- expr.rs `ResolvedReference::visible_heads_or_referenced()`. -/
def ResolvedReference.visible_heads_or_referenced : ResolvedReference :=
  "visible_heads() and referenced revisions"

/-- expr.rs `ResolvedReference::working_copy()`. -/
def ResolvedReference.working_copy : ResolvedReference := "@"

/-- jj_lib `StringPattern` (payload: the literal pattern text). -/
inductive StringPattern where
  | exact (s : String)
  | exactI (s : String)
  | substring (s : String)
  | substringI (s : String)
  | glob (s : String)
  | globI (s : String)
  | regex (s : String)
  | regexI (s : String)
deriving DecidableEq, Repr

/-- jj_lib `StringPattern::as_str`: the literal text of the pattern. -/
def StringPattern.as_str : StringPattern → String
  | .exact s | .exactI s | .substring s | .substringI s
  | .glob s | .globI s | .regex s | .regexI s => s

/-- print.rs `string_pattern_kind`. -/
def string_pattern_kind : StringPattern → String
  | .exact _ => "exact"
  | .exactI _ => "exact-i"
  | .substring _ => "substring"
  | .substringI _ => "substring-i"
  | .glob _ => "glob"
  | .globI _ => "glob-i"
  | .regex _ => "regex"
  | .regexI _ => "regex-i"

/-- jj_lib `StringExpression`. -/
inductive StringExpression where
  | pattern (p : StringPattern)
  | notIn (e : StringExpression)
  | union (a b : StringExpression)
  | intersection (a b : StringExpression)
deriving DecidableEq, Repr

/-- Escaping of one character as in Rust's `Debug` form of a string
(quotes, backslashes and common control characters; the `\u` escapes that
Rust emits for other control characters are elided, they never occur in the
inputs considered here). -/
def rustDebugChar (c : Char) : String :=
  if c = '"' then "\\\""
  else if c = '\\' then "\\\\"
  else if c = '\n' then "\\n"
  else if c = '\t' then "\\t"
  else if c = '\r' then "\\r"
  else String.singleton c

/-- Rust's `Debug` rendering of a string: quoted and escaped (the Rust
format specifier used by print.rs for pattern payloads). -/
def rustDebug (s : String) : String :=
  "\"" ++ String.join (s.toList.map rustDebugChar) ++ "\""

/-- print.rs `format_string_expression`. -/
def format_string_expression : StringExpression → String
  | .pattern p => string_pattern_kind p ++ ":" ++ rustDebug p.as_str
  | .notIn inner => "~" ++ format_string_expression inner
  | .union a b =>
      "(" ++ format_string_expression a ++ " | " ++ format_string_expression b ++ ")"
  | .intersection a b =>
      "(" ++ format_string_expression a ++ " & " ++ format_string_expression b ++ ")"

/-- jj_lib `DatePattern`.  The payload is the timestamp already rendered to
rfc3339 text, since the millisecond-to-text conversion is done by the external
chrono library in print.rs `format_date_pattern`. -/
inductive DatePattern where
  | atOrAfter (ts : String)
  | before (ts : String)
deriving DecidableEq, Repr

/-- print.rs `format_date_pattern`. -/
def format_date_pattern : DatePattern → String
  | .atOrAfter ts => "after:" ++ ts
  | .before ts => "before:" ++ ts

/-- jj_lib `FilePattern` (payloads: internal path strings and glob text). -/
inductive FilePattern where
  | filePath (path : String)
  | prefixPath (path : String)
  | fileGlob (dir : String) (pat : String)
  | prefixGlob (dir : String) (pat : String)
deriving DecidableEq, Repr

/-- print.rs `format_file_pattern`. -/
def format_file_pattern : FilePattern → String
  | .filePath path => "file:" ++ rustDebug path
  | .prefixPath path => rustDebug path
  | .fileGlob dir pat => "glob:" ++ rustDebug (dir ++ pat)
  | .prefixGlob dir pat => "prefix-glob:" ++ rustDebug (dir ++ pat)

/-- jj_lib `FilesetExpression`. -/
inductive FilesetExpression where
  | none
  | all
  | pattern (p : FilePattern)
  | unionAll (es : List FilesetExpression)
  | intersection (a b : FilesetExpression)
  | difference (a b : FilesetExpression)

mutual

/-- print.rs `format_fileset_expression`. -/
def format_fileset_expression : FilesetExpression → String
  | .none => "none()"
  | .all => "all()"
  | .pattern p => format_file_pattern p
  | .unionAll es =>
      "(" ++ String.intercalate " | " (format_fileset_list es) ++ ")"
  | .intersection a b =>
      "(" ++ format_fileset_expression a ++ " & " ++ format_fileset_expression b ++ ")"
  | .difference a b =>
      "(" ++ format_fileset_expression a ++ " ~ " ++ format_fileset_expression b ++ ")"

/-- Helper for the `UnionAll` case of `format_fileset_expression`: formats
each member of the list in order. -/
def format_fileset_list : List FilesetExpression → List String
  | [] => []
  | e :: rest => format_fileset_expression e :: format_fileset_list rest

end

/-- jj_lib `RevsetFilterPredicate`.  The `extension` payload is the text
Rust's `Debug` form would print for the extension object. -/
inductive RevsetFilterPredicate where
  | parentCount (range : NatRange)
  | description (pattern : StringExpression)
  | subject (pattern : StringExpression)
  | authorName (pattern : StringExpression)
  | authorEmail (pattern : StringExpression)
  | authorDate (pattern : DatePattern)
  | committerName (pattern : StringExpression)
  | committerEmail (pattern : StringExpression)
  | committerDate (pattern : DatePattern)
  | file (files : FilesetExpression)
  | diffLines (text : StringExpression) (files : FilesetExpression)
  | hasConflict
  | signed
  | extension (ext : String)

/-- print.rs `format_range`, instantiated at `Nat` endpoints.  In Rust the
subtraction `range.end - 1` is on an unsigned machine integer; on the
well-formed (non-reversed) ranges that occur it never underflows, and `Nat`
subtraction agrees with it there. -/
def format_range (range : NatRange) (full_range : NatRange) : Option String :=
  if range.start = full_range.start ∧ range.stop = full_range.stop then
    Option.none
  else if range.start = range.stop then
    Option.some "empty range"
  else if range.start = range.stop - 1 then
    Option.some (toString range.start)
  else if range.stop = full_range.stop then
    Option.some (toString range.start ++ "..")
  else
    Option.some (toString range.start ++ ".." ++ toString range.stop)

/-- expr.rs `filter_to_string`.  The Rust source formats the `Option`
returned by `format_range` directly; the absent case (a full parent range)
is rendered here as the empty string, matching the `unwrap_or_default`
convention used for the same pattern in tree.rs. -/
def filter_to_string : RevsetFilterPredicate → String
  | .parentCount range =>
      if range = ⟨2, u32Max⟩ then "merges()"
      else "parent_count(" ++ (format_range range PARENTS_RANGE_FULL).getD "" ++ ")"
  | .description pattern => "description(" ++ format_string_expression pattern ++ ")"
  | .subject pattern => "subject(" ++ format_string_expression pattern ++ ")"
  | .authorName pattern => "author_name(" ++ format_string_expression pattern ++ ")"
  | .authorEmail pattern => "author_email(" ++ format_string_expression pattern ++ ")"
  | .authorDate pattern => "author_date(" ++ format_date_pattern pattern ++ ")"
  | .committerName pattern => "committer_name(" ++ format_string_expression pattern ++ ")"
  | .committerEmail pattern => "committer_email(" ++ format_string_expression pattern ++ ")"
  | .committerDate pattern => "committer_date(" ++ format_date_pattern pattern ++ ")"
  | .file files => "files(" ++ format_fileset_expression files ++ ")"
  | .diffLines text files =>
      "diff_lines(" ++ format_string_expression text ++ ", "
        ++ format_fileset_expression files ++ ")"
  | .hasConflict => "conflicts()"
  | .signed => "signed()"
  | .extension ext => "extension(" ++ ext ++ ")"

mutual

/-- expr.rs `Predicate`. -/
inductive Predicate where
  | filter (f : RevsetFilterPredicate)
  | divergent (visible_heads : Expr)
  | set (e : Expr)
  | notIn (p : Predicate)
  | union (ps : List Predicate)
  | intersection (ps : List Predicate)

/-- expr.rs `Expr`. -/
inductive Expr where
  | none
  | reference (r : ResolvedReference)
  | ancestors (heads : Expr) (generation : NatRange) (parents_range : NatRange)
  | range (roots : Expr) (heads : Expr) (generation : NatRange) (parents_range : NatRange)
  | dagRange (roots : Expr) (heads : Expr) (generation_from_roots : NatRange)
  | reachable (sources : Expr) (domain : Expr)
  | heads (e : Expr)
  | headsRange (roots : Expr) (heads : Expr) (parents_range : NatRange)
      (filter : Option Predicate)
  | roots (e : Expr)
  | forkPoint (e : Expr)
  | bisect (e : Expr)
  | hasSize (candidates : Expr) (count : Nat)
  | latest (candidates : Expr) (count : Nat)
  | coalesce (es : List Expr)
  | union (es : List Expr)
  | filterWithin (candidates : Expr) (predicate : Predicate)
  | intersection (es : List Expr)
  | difference (a b : Expr)

end

/-- expr.rs `Expr::is_none`. -/
def Expr.is_none : Expr → Bool
  | .none => true
  | _ => false

mutual

/-- expr.rs `Expr::is_root_or_none`. -/
def Expr.is_root_or_none : Expr → Bool
  | .none => true
  | .reference reference => reference == ResolvedReference.root
  | .coalesce exprs => all_root_or_none exprs
  | .intersection exprs => any_root_or_none exprs
  | .union exprs => all_root_or_none exprs
  | _ => false

/-- Helper for `Expr.is_root_or_none`: Rust `exprs.iter().all(...)`. -/
def all_root_or_none : List Expr → Bool
  | [] => true
  | e :: rest => e.is_root_or_none && all_root_or_none rest

/-- Helper for `Expr.is_root_or_none`: Rust `exprs.iter().any(...)`. -/
def any_root_or_none : List Expr → Bool
  | [] => false
  | e :: rest => e.is_root_or_none || any_root_or_none rest

end

/-- expr.rs `is_large_range`: width at least 10,000 (`Nat` subtraction is
Rust's `saturating_sub`). -/
def is_large_range (range : NatRange) : Bool :=
  10000 ≤ range.stop - range.start

mutual

/-- expr.rs `Expr::cost` (the `AnalyzeTree` impl).  The guarded match arms of
the Rust source, which are on pairwise distinct constructors, are rendered as
one conditional per constructor with the same guard. -/
def Expr.cost : Expr → AnalyzeContext → AnalyzeCost
  | .ancestors heads generation parents_range, context =>
      if context = .eager && !heads.is_root_or_none && is_large_range generation then
        .slow
      else
        .fast
  | .range roots heads generation parents_range, context =>
      if context = .eager && roots.is_root_or_none && !heads.is_root_or_none
          && is_large_range generation then
        .slow
      else
        .fast
  | .dagRange roots heads generation_from_roots, _context =>
      if !roots.is_none && roots.is_root_or_none && !heads.is_root_or_none
          && is_large_range generation_from_roots then
        .slow
      else
        .fast
  | .intersection exprs, context =>
      if all_cost_slow exprs context then .slow else .fast
  | _, _ => .fast

/-- Helper for the `Intersection` arm of `Expr::cost`: Rust
`exprs.iter().all(|expr| expr.cost(context) == AnalyzeCost::Slow)`. -/
def all_cost_slow : List Expr → AnalyzeContext → Bool
  | [], _context => true
  | e :: rest, context => (e.cost context == .slow) && all_cost_slow rest context

end

/-- expr.rs `Predicate::cost` (the `AnalyzeTree` impl). -/
def Predicate.cost : Predicate → AnalyzeContext → AnalyzeCost
  | .set expr, _context => expr.cost .predicate
  | _, _context => .fast

/-- The target of a `Child`'s `tree` pointer (Rust `&dyn AnalyzeTree`): one
constructor per concrete type that implements `AnalyzeTree` and is used as a
child (`Expr`, `Predicate`, `Range<u64>`, `Range<u32>`, `usize`). -/
inductive Node where
  | ofExpr (e : Expr)
  | ofPredicate (p : Predicate)
  | ofGenRange (r : NatRange)
  | ofParentsRange (r : NatRange)
  | ofCount (n : Nat)

/-- tree.rs `Child`. -/
structure Child where
  label : Option String
  context : AnalyzeContext
  tree : Node

/-- tree.rs `TreeEntry`. -/
structure TreeEntry where
  name : String
  context : AnalyzeContext
  children : List Child

/-- expr.rs `only_present`: keep the children that are present. -/
def only_present (children : List (Option Child)) : List Child :=
  children.filterMap id

/-- expr.rs: the `AnalyzeTree::entry` impl for `ResolvedReference`. -/
def ResolvedReference.entry (r : ResolvedReference) (_context : AnalyzeContext) : TreeEntry :=
  { name := r, context := .resolved, children := [] }

/-- expr.rs `Expr::entry` (the `AnalyzeTree` impl). -/
def Expr.entry : Expr → AnalyzeContext → TreeEntry
  | .none, _context =>
      { name := "none()", context := .resolved, children := [] }
  | .reference r, context => ResolvedReference.entry r context
  | .ancestors hd generation parents_range, context =>
      { name := "Ancestors"
        context := context.predicate_to_lazy
        children := only_present [
          if generation ≠ GENERATION_RANGE_FULL then
            Option.some ⟨Option.some "generation", context, .ofGenRange generation⟩
          else Option.none,
          if parents_range ≠ PARENTS_RANGE_FULL then
            Option.some ⟨Option.some "parent_index", context, .ofParentsRange parents_range⟩
          else Option.none,
          Option.some ⟨Option.some "heads", .eager, .ofExpr hd⟩] }
  | .range rt hd generation parents_range, context =>
      { name := "Range"
        context := context.predicate_to_lazy
        children := only_present [
          if generation ≠ GENERATION_RANGE_FULL then
            Option.some ⟨Option.some "generation", context, .ofGenRange generation⟩
          else Option.none,
          if parents_range ≠ PARENTS_RANGE_FULL then
            Option.some ⟨Option.some "parent_index", context, .ofParentsRange parents_range⟩
          else Option.none,
          Option.some ⟨Option.some "roots", .eager, .ofExpr rt⟩,
          Option.some ⟨Option.some "heads", .eager, .ofExpr hd⟩] }
  | .dagRange rt hd generation_from_roots, context =>
      { name := "DagRange"
        context :=
          if generation_from_roots = ⟨1, 2⟩ then context.predicate_to_lazy
          else .eager
        children := only_present [
          if generation_from_roots ≠ GENERATION_RANGE_FULL then
            Option.some
              ⟨Option.some "generation_from_roots", context, .ofGenRange generation_from_roots⟩
          else Option.none,
          Option.some ⟨Option.some "roots", .eager, .ofExpr rt⟩,
          Option.some ⟨Option.some "heads", .eager, .ofExpr hd⟩] }
  | .reachable sources domain, _context =>
      { name := "Reachable"
        context := .eager
        children := [
          ⟨Option.some "sources", .predicate, .ofExpr sources⟩,
          ⟨Option.some "domain", .eager, .ofExpr domain⟩] }
  | .heads expr, _context =>
      { name := "Heads"
        context := .eager
        children := [⟨Option.none, .eager, .ofExpr expr⟩] }
  | .headsRange rt hd parents_range fil, context =>
      { name := "HeadsRange"
        context := .eager
        children := only_present [
          if parents_range ≠ PARENTS_RANGE_FULL then
            Option.some ⟨Option.some "parent_index", context, .ofParentsRange parents_range⟩
          else Option.none,
          Option.some ⟨Option.some "roots", .eager, .ofExpr rt⟩,
          Option.some ⟨Option.some "heads", .eager, .ofExpr hd⟩,
          fil.map fun f => ⟨Option.some "filter", .predicate, .ofPredicate f⟩] }
  | .roots expr, _context =>
      { name := "Roots"
        context := .eager
        children := [⟨Option.none, .eager, .ofExpr expr⟩] }
  | .forkPoint expr, _context =>
      { name := "ForkPoint"
        context := .eager
        children := [⟨Option.none, .eager, .ofExpr expr⟩] }
  | .bisect expr, _context =>
      { name := "Bisect"
        context := .eager
        children := [⟨Option.none, .eager, .ofExpr expr⟩] }
  | .hasSize candidates count, _context =>
      { name := "HasSize"
        context := .eager
        children := [
          ⟨Option.some "count", .resolved, .ofCount count⟩,
          ⟨Option.some "candidates", .lazy, .ofExpr candidates⟩] }
  | .latest candidates count, _context =>
      { name := "Latest"
        context := .eager
        children := [
          ⟨Option.some "count", .resolved, .ofCount count⟩,
          ⟨Option.some "candidates", .eager, .ofExpr candidates⟩] }
  | .coalesce exprs, context =>
      { name := "Coalesce"
        context := context
        children := exprs.map fun expr => ⟨Option.none, context, .ofExpr expr⟩ }
  | .union exprs, context =>
      { name := "Union"
        context := context
        children := exprs.map fun expr => ⟨Option.none, context, .ofExpr expr⟩ }
  | .filterWithin candidates predicate, context =>
      { name := "FilterWithin"
        context := context
        children := [
          ⟨Option.some "candidates", context, .ofExpr candidates⟩,
          ⟨Option.some "predicate", .predicate, .ofPredicate predicate⟩] }
  | .intersection exprs, context =>
      { name := "Intersection"
        context := context
        children := exprs.map fun expr => ⟨Option.none, context.eager_to_lazy, .ofExpr expr⟩ }
  | .difference expr1 expr2, context =>
      { name := "Difference"
        context := context
        children := [
          ⟨Option.some "candidates", context, .ofExpr expr1⟩,
          ⟨Option.some "excluded", context.eager_to_lazy, .ofExpr expr2⟩] }

/-- expr.rs `Predicate::entry` (the `AnalyzeTree` impl; the ambient context
parameter is ignored by the Rust source). -/
def Predicate.entry : Predicate → AnalyzeContext → TreeEntry
  | .filter (.file .all), _context =>
      { name := "~empty()", context := .predicate, children := [] }
  | .filter fil, _context =>
      { name := filter_to_string fil, context := .predicate, children := [] }
  | .divergent visible_heads, _context =>
      { name := "Divergent"
        context := .predicate
        children := [⟨Option.some "visible_heads", .eager, .ofExpr visible_heads⟩] }
  | .set expr, _context => expr.entry .predicate
  | .notIn (.filter (.file .all)), _context =>
      { name := "empty()", context := .predicate, children := [] }
  | .notIn (.filter fil), _context =>
      { name := "~" ++ filter_to_string fil, context := .predicate, children := [] }
  | .notIn inner, _context =>
      { name := "NotIn"
        context := .predicate
        children := [⟨Option.none, .predicate, .ofPredicate inner⟩] }
  | .union exprs, _context =>
      { name := "Union"
        context := .predicate
        children := exprs.map fun expr => ⟨Option.none, .predicate, .ofPredicate expr⟩ }
  | .intersection exprs, _context =>
      { name := "Intersection"
        context := .predicate
        children := exprs.map fun expr => ⟨Option.none, .predicate, .ofPredicate expr⟩ }

/-- parse.rs `ReferenceMap`: an insertion-ordered set of references, as a
list in insertion order.  Identifiers are positions in this list; the Rust
source encodes a position into a `CommitId` via the little-endian bytes of
the `usize` index, which is a bijection on the identifiers it ever hands
out, so the position itself is used as the identifier here. -/
structure ReferenceMap where
  references : List ResolvedReference
deriving DecidableEq, Repr

/-- IndexSet `get_index_of`: position of the first (and, on the deduplicated
lists a `ReferenceMap` holds, only) occurrence. -/
def get_index_of (refs : List ResolvedReference) (r : ResolvedReference) : Option Nat :=
  match refs with
  | [] => Option.none
  | x :: rest => if x = r then Option.some 0 else (get_index_of rest r).map (· + 1)

/-- parse.rs `ReferenceMap::insert`: the identifier of an already-present
reference, otherwise append and return the fresh identifier. -/
def ReferenceMap.insert (m : ReferenceMap) (reference : ResolvedReference) :
    Nat × ReferenceMap :=
  match get_index_of m.references reference with
  | Option.some index => (index, m)
  | Option.none => (m.references.length, ⟨m.references ++ [reference]⟩)

/-- Sequential insertion of a list of references, collecting the returned
identifiers in order (the scenario of the dedup/density claims). -/
def ReferenceMap.insertAll (m : ReferenceMap) : List ResolvedReference → List Nat × ReferenceMap
  | [] => ([], m)
  | r :: rest =>
      let step := m.insert r
      let tail := step.2.insertAll rest
      (step.1 :: tail.1, tail.2)

mutual

/-- jj_lib `ResolvedPredicateExpression`, the external input consumed by
`Predicate::parse`.  `Divergent` carries the commit ids of the visible
heads. -/
inductive ResolvedPredicateExpression where
  | filter (f : RevsetFilterPredicate)
  | divergent (visible_heads : List Nat)
  | set (e : ResolvedExpression)
  | notIn (p : ResolvedPredicateExpression)
  | union (a b : ResolvedPredicateExpression)
  | intersection (a b : ResolvedPredicateExpression)

/-- jj_lib `ResolvedExpression`, the external input consumed by
`Expr::parse`.  Commit ids (which parse.rs encodes as little-endian bytes of
dense indices) are `Nat`. -/
inductive ResolvedExpression where
  | commits (ids : List Nat)
  | ancestors (heads : ResolvedExpression) (generation : NatRange) (parents_range : NatRange)
  | range (roots : ResolvedExpression) (heads : ResolvedExpression)
      (generation : NatRange) (parents_range : NatRange)
  | dagRange (roots : ResolvedExpression) (heads : ResolvedExpression)
      (generation_from_roots : NatRange)
  | reachable (sources : ResolvedExpression) (domain : ResolvedExpression)
  | heads (e : ResolvedExpression)
  | headsRange (roots : ResolvedExpression) (heads : ResolvedExpression)
      (parents_range : NatRange) (filter : Option ResolvedPredicateExpression)
  | roots (e : ResolvedExpression)
  | forkPoint (e : ResolvedExpression)
  | bisect (e : ResolvedExpression)
  | hasSize (candidates : ResolvedExpression) (count : Nat)
  | latest (candidates : ResolvedExpression) (count : Nat)
  | coalesce (a b : ResolvedExpression)
  | union (a b : ResolvedExpression)
  | filterWithin (candidates : ResolvedExpression) (predicate : ResolvedPredicateExpression)
  | intersection (a b : ResolvedExpression)
  | difference (a b : ResolvedExpression)

end

mutual

/-- Structural size of an external expression (termination measure only). -/
def ResolvedExpression.sz : ResolvedExpression → Nat
  | .commits _ => 1
  | .ancestors hds _ _ => 1 + hds.sz
  | .range rts hds _ _ => 1 + rts.sz + hds.sz
  | .dagRange rts hds _ => 1 + rts.sz + hds.sz
  | .reachable sources domain => 1 + sources.sz + domain.sz
  | .heads e => 1 + e.sz
  | .headsRange rts hds _ Option.none => 1 + rts.sz + hds.sz
  | .headsRange rts hds _ (Option.some p) => 2 + rts.sz + hds.sz + p.sz
  | .roots e => 1 + e.sz
  | .forkPoint e => 1 + e.sz
  | .bisect e => 1 + e.sz
  | .hasSize candidates _ => 1 + candidates.sz
  | .latest candidates _ => 1 + candidates.sz
  | .coalesce a b => 1 + a.sz + b.sz
  | .union a b => 1 + a.sz + b.sz
  | .filterWithin candidates predicate => 1 + candidates.sz + predicate.sz
  | .intersection a b => 1 + a.sz + b.sz
  | .difference a b => 1 + a.sz + b.sz

/-- Structural size of an external predicate (termination measure only). -/
def ResolvedPredicateExpression.sz : ResolvedPredicateExpression → Nat
  | .filter _ => 1
  | .divergent _ => 1
  | .set e => 1 + e.sz
  | .notIn p => 1 + p.sz
  | .union a b => 1 + a.sz + b.sz
  | .intersection a b => 1 + a.sz + b.sz

end

/-- Weight of a flattening work-stack of external expressions (termination
measure for the iterative flattening loops): a fixed offset plus a multiple
of the size of each pending element. -/
def stack_weight : List ResolvedExpression → Nat
  | [] => 0
  | e :: rest => 1 + 10 * e.sz + stack_weight rest

/-- Weight of a flattening work-stack of external predicates. -/
def pred_stack_weight : List ResolvedPredicateExpression → Nat
  | [] => 0
  | p :: rest => 1 + 10 * p.sz + pred_stack_weight rest

/-- The rewrapping done by the `Set` arm of the `Union` work-stack loop of
`Predicate::parse`: an operand whose import turned out to be
an `Expr::Union` has its elements re-wrapped individually as `Predicate::Set`;
any other import result is wrapped as a single `Predicate::Set`. -/
def wrap_set_elements : Expr → List Predicate
  | .union exprs => exprs.map fun e => Predicate.set e
  | parsed => [Predicate.set parsed]

mutual

/-- expr.rs `Expr::parse`: import one external node.  `get` stands for
`reference_map.get`, the (read-only during import of one node) lookup of a
commit id's display reference. -/
def Expr.parse (get : Nat → ResolvedReference) : ResolvedExpression → Expr
  | .commits [] => .none
  | .commits [i] => .reference (get i)
  | .commits ids =>
      if ids.any (fun i => get i == ResolvedReference.visible_heads) then
        .reference ResolvedReference.visible_heads_or_referenced
      else
        .union (ids.map fun i => Expr.reference (get i))
  | .ancestors hds generation parents_range =>
      .ancestors (Expr.parse get hds) generation parents_range
  | .range rts hds generation parents_range =>
      .range (Expr.parse get rts) (Expr.parse get hds) generation parents_range
  | .dagRange rts hds generation_from_roots =>
      .dagRange (Expr.parse get rts) (Expr.parse get hds) generation_from_roots
  | .reachable sources domain =>
      .reachable (Expr.parse get sources) (Expr.parse get domain)
  | .heads e => .heads (Expr.parse get e)
  | .headsRange rts hds parents_range Option.none =>
      .headsRange (Expr.parse get rts) (Expr.parse get hds) parents_range Option.none
  | .headsRange rts hds parents_range (Option.some p) =>
      .headsRange (Expr.parse get rts) (Expr.parse get hds) parents_range
        (Option.some (Predicate.parse get p))
  | .roots e => .roots (Expr.parse get e)
  | .forkPoint e => .forkPoint (Expr.parse get e)
  | .bisect e => .bisect (Expr.parse get e)
  | .hasSize candidates count => .hasSize (Expr.parse get candidates) count
  | .latest candidates count => .latest (Expr.parse get candidates) count
  | .coalesce a b => .coalesce (coalesce_flatten get [a, b])
  | .union a b => .union (union_flatten get [a, b])
  | .filterWithin candidates predicate =>
      .filterWithin (Expr.parse get candidates) (Predicate.parse get predicate)
  | .intersection a b => .intersection (intersection_flatten get [a, b])
  | .difference a b => .difference (Expr.parse get a) (Expr.parse get b)
termination_by e => 10 * e.sz
decreasing_by all_goals (simp_wf; try simp [stack_weight, ResolvedExpression.sz, ResolvedPredicateExpression.sz]; try omega)

/-- The `Coalesce` work-stack loop of `Expr::parse`.  The Rust loop pushes
the right operand first and the left second, so the list head here is the
stack top; results are returned in the order the Rust loop appends them. -/
def coalesce_flatten (get : Nat → ResolvedReference) : List ResolvedExpression → List Expr
  | [] => []
  | .coalesce a b :: stack => coalesce_flatten get (a :: b :: stack)
  | next :: stack => Expr.parse get next :: coalesce_flatten get stack
termination_by stack => stack_weight stack + 1
decreasing_by all_goals (simp_wf; try simp [stack_weight, ResolvedExpression.sz, ResolvedPredicateExpression.sz]; try omega)

/-- The `Union` work-stack loop of `Expr::parse`: same-kind nodes are
re-pushed, and a literal commit set with no visible-heads element is
expanded inline into one `Reference` per element. -/
def union_flatten (get : Nat → ResolvedReference) : List ResolvedExpression → List Expr
  | [] => []
  | .union a b :: stack => union_flatten get (a :: b :: stack)
  | .commits ids :: stack =>
      if !ids.any (fun i => get i == ResolvedReference.visible_heads) then
        (ids.map fun i => Expr.reference (get i)) ++ union_flatten get stack
      else
        Expr.parse get (.commits ids) :: union_flatten get stack
  | next :: stack => Expr.parse get next :: union_flatten get stack
termination_by stack => stack_weight stack + 1
decreasing_by all_goals (simp_wf; try simp [stack_weight, ResolvedExpression.sz, ResolvedPredicateExpression.sz]; try omega)

/-- The `Intersection` work-stack loop of `Expr::parse`. -/
def intersection_flatten (get : Nat → ResolvedReference) : List ResolvedExpression → List Expr
  | [] => []
  | .intersection a b :: stack => intersection_flatten get (a :: b :: stack)
  | next :: stack => Expr.parse get next :: intersection_flatten get stack
termination_by stack => stack_weight stack + 1
decreasing_by all_goals (simp_wf; try simp [stack_weight, ResolvedExpression.sz, ResolvedPredicateExpression.sz]; try omega)

/-- expr.rs `Predicate::parse`. -/
def Predicate.parse (get : Nat → ResolvedReference) : ResolvedPredicateExpression → Predicate
  | .filter f => .filter f
  | .divergent visible_heads => .divergent (Expr.parse get (.commits visible_heads))
  | .set e => .set (Expr.parse get e)
  | .notIn p => .notIn (Predicate.parse get p)
  | .union a b => .union (predicate_union_flatten get [a, b])
  | .intersection a b => .intersection (predicate_intersection_flatten get [a, b])
termination_by p => 10 * p.sz + 1
decreasing_by all_goals (simp_wf; try simp [pred_stack_weight, ResolvedPredicateExpression.sz, ResolvedExpression.sz]; try omega)

/-- The `Union` work-stack loop of `Predicate::parse`: a `Set` operand
whose import turns out to be an `Expr::Union` has its elements re-wrapped
individually as `Predicate::Set` and spliced in. -/
def predicate_union_flatten (get : Nat → ResolvedReference) :
    List ResolvedPredicateExpression → List Predicate
  | [] => []
  | .union a b :: stack => predicate_union_flatten get (a :: b :: stack)
  | .set s :: stack =>
      wrap_set_elements (Expr.parse get s) ++ predicate_union_flatten get stack
  | next :: stack => Predicate.parse get next :: predicate_union_flatten get stack
termination_by stack => pred_stack_weight stack + 1
decreasing_by all_goals (simp_wf; try simp [pred_stack_weight, ResolvedPredicateExpression.sz, ResolvedExpression.sz]; try omega)

/-- The `Intersection` work-stack loop of `Predicate::parse`. -/
def predicate_intersection_flatten (get : Nat → ResolvedReference) :
    List ResolvedPredicateExpression → List Predicate
  | [] => []
  | .intersection a b :: stack => predicate_intersection_flatten get (a :: b :: stack)
  | next :: stack => Predicate.parse get next :: predicate_intersection_flatten get stack
termination_by stack => pred_stack_weight stack + 1
decreasing_by all_goals (simp_wf; try simp [pred_stack_weight, ResolvedPredicateExpression.sz, ResolvedExpression.sz]; try omega)

end

/-- Whether an `Expr` is a `Union` node. -/
def Expr.is_union : Expr → Bool
  | .union _ => true
  | _ => false

/-- Whether an `Expr` is a `Coalesce` node. -/
def Expr.is_coalesce : Expr → Bool
  | .coalesce _ => true
  | _ => false

/-- Whether an `Expr` is an `Intersection` node. -/
def Expr.is_intersection : Expr → Bool
  | .intersection _ => true
  | _ => false

/-- Whether a `Predicate` is a `Union` node. -/
def Predicate.is_union : Predicate → Bool
  | .union _ => true
  | _ => false

/-- Whether a `Predicate` is an `Intersection` node. -/
def Predicate.is_intersection : Predicate → Bool
  | .intersection _ => true
  | _ => false

/-- Whether an external expression is a `Union` node. -/
def ResolvedExpression.is_union : ResolvedExpression → Bool
  | .union _ _ => true
  | _ => false

/-- Whether an external expression is a `Coalesce` node. -/
def ResolvedExpression.is_coalesce : ResolvedExpression → Bool
  | .coalesce _ _ => true
  | _ => false

/-- Whether an external expression is an `Intersection` node. -/
def ResolvedExpression.is_intersection : ResolvedExpression → Bool
  | .intersection _ _ => true
  | _ => false

mutual

/-- The flatness invariant on `Expr` (spec §3): no `Union` directly contains
a `Union` child, no `Intersection` an `Intersection` child, no `Coalesce` a
`Coalesce` child, recursively everywhere (including through predicates). -/
def Expr.flatOk : Expr → Bool
  | .none => true
  | .reference _ => true
  | .ancestors hd _ _ => hd.flatOk
  | .range rt hd _ _ => rt.flatOk && hd.flatOk
  | .dagRange rt hd _ => rt.flatOk && hd.flatOk
  | .reachable sources domain => sources.flatOk && domain.flatOk
  | .heads e => e.flatOk
  | .headsRange rt hd _ Option.none => rt.flatOk && hd.flatOk
  | .headsRange rt hd _ (Option.some p) => rt.flatOk && hd.flatOk && p.flatOk
  | .roots e => e.flatOk
  | .forkPoint e => e.flatOk
  | .bisect e => e.flatOk
  | .hasSize candidates _ => candidates.flatOk
  | .latest candidates _ => candidates.flatOk
  | .coalesce es => es.all (fun e => !e.is_coalesce) && exprs_flatOk es
  | .union es => es.all (fun e => !e.is_union) && exprs_flatOk es
  | .filterWithin candidates predicate => candidates.flatOk && predicate.flatOk
  | .intersection es => es.all (fun e => !e.is_intersection) && exprs_flatOk es
  | .difference a b => a.flatOk && b.flatOk

/-- The flatness invariant on `Predicate`: predicate-level `Union` and
`Intersection` never directly contain a child of the same variant. -/
def Predicate.flatOk : Predicate → Bool
  | .filter _ => true
  | .divergent visible_heads => visible_heads.flatOk
  | .set e => e.flatOk
  | .notIn p => p.flatOk
  | .union ps => ps.all (fun p => !p.is_union) && preds_flatOk ps
  | .intersection ps => ps.all (fun p => !p.is_intersection) && preds_flatOk ps

/-- All expressions in a list satisfy the flatness invariant. -/
def exprs_flatOk : List Expr → Bool
  | [] => true
  | e :: rest => e.flatOk && exprs_flatOk rest

/-- All predicates in a list satisfy the flatness invariant. -/
def preds_flatOk : List Predicate → Bool
  | [] => true
  | p :: rest => p.flatOk && preds_flatOk rest

end

/-! Helper lemmas about the list traversals of the analysis functions. -/

theorem all_root_or_none_iff (es : List Expr) :
    all_root_or_none es = true ↔ ∀ e ∈ es, e.is_root_or_none = true := by
  induction es with
  | nil => simp [all_root_or_none]
  | cons e rest ih => simp [all_root_or_none, ih]

theorem any_root_or_none_iff (es : List Expr) :
    any_root_or_none es = true ↔ ∃ e ∈ es, e.is_root_or_none = true := by
  induction es with
  | nil => simp [any_root_or_none]
  | cons e rest ih => simp [any_root_or_none, ih]

theorem all_cost_slow_iff (es : List Expr) (context : AnalyzeContext) :
    all_cost_slow es context = true ↔ ∀ e ∈ es, e.cost context = .slow := by
  induction es with
  | nil => simp [all_cost_slow]
  | cons e rest ih => simp [all_cost_slow, ih]

/-- Claim C1: for every `Ancestors` expression and ambient context, the cost
is Slow exactly when the context is Eager, the heads child is not
root-or-none, and the generation range is large (width at least 10,000);
in every other case the cost is Fast. -/
theorem ancestors_cost_slow_iff (hd : Expr) (generation parents_range : NatRange)
    (context : AnalyzeContext) :
    (Expr.cost (.ancestors hd generation parents_range) context = .slow ↔
      (context = .eager ∧ hd.is_root_or_none = false ∧ is_large_range generation = true))
    ∧ (Expr.cost (.ancestors hd generation parents_range) context = .fast ↔
      ¬(context = .eager ∧ hd.is_root_or_none = false ∧ is_large_range generation = true)) := by
  constructor
  · simp [Expr.cost]
  · simp [Expr.cost]

/-- Claim C5: `is_root_or_none` is true for `None` and for `Reference` equal
to the root constant; on `Coalesce` and `Union` it holds exactly when all
members satisfy it, on `Intersection` exactly when some member satisfies it,
and it is false on every other constructor. -/
theorem is_root_or_none_spec :
    (Expr.is_root_or_none .none = true)
    ∧ (∀ r : ResolvedReference,
        Expr.is_root_or_none (.reference r) = true ↔ r = ResolvedReference.root)
    ∧ (∀ es, Expr.is_root_or_none (.coalesce es) = true ↔ ∀ e ∈ es, e.is_root_or_none = true)
    ∧ (∀ es, Expr.is_root_or_none (.union es) = true ↔ ∀ e ∈ es, e.is_root_or_none = true)
    ∧ (∀ es, Expr.is_root_or_none (.intersection es) = true ↔ ∃ e ∈ es, e.is_root_or_none = true)
    ∧ (∀ hd g p, Expr.is_root_or_none (.ancestors hd g p) = false)
    ∧ (∀ rt hd g p, Expr.is_root_or_none (.range rt hd g p) = false)
    ∧ (∀ rt hd g, Expr.is_root_or_none (.dagRange rt hd g) = false)
    ∧ (∀ s d, Expr.is_root_or_none (.reachable s d) = false)
    ∧ (∀ e, Expr.is_root_or_none (.heads e) = false)
    ∧ (∀ rt hd p f, Expr.is_root_or_none (.headsRange rt hd p f) = false)
    ∧ (∀ e, Expr.is_root_or_none (.roots e) = false)
    ∧ (∀ e, Expr.is_root_or_none (.forkPoint e) = false)
    ∧ (∀ e, Expr.is_root_or_none (.bisect e) = false)
    ∧ (∀ c n, Expr.is_root_or_none (.hasSize c n) = false)
    ∧ (∀ c n, Expr.is_root_or_none (.latest c n) = false)
    ∧ (∀ c p, Expr.is_root_or_none (.filterWithin c p) = false)
    ∧ (∀ a b, Expr.is_root_or_none (.difference a b) = false) := by
  refine ⟨?_, ?_, ?_, ?_, ?_, ?_, ?_, ?_, ?_, ?_, ?_, ?_, ?_, ?_, ?_, ?_, ?_, ?_⟩
  · simp [Expr.is_root_or_none]
  · intro r
    simp [Expr.is_root_or_none]
  · intro es
    simp [Expr.is_root_or_none, all_root_or_none_iff]
  · intro es
    simp [Expr.is_root_or_none, all_root_or_none_iff]
  · intro es
    simp [Expr.is_root_or_none, any_root_or_none_iff]
  all_goals intros
  all_goals simp [Expr.is_root_or_none]

/-- Claim C6: for every `Intersection` expression and ambient context, the
cost is Slow exactly when every member's cost under the same unchanged
ambient context is Slow; in particular the empty `Intersection` is Slow. -/
theorem intersection_cost_slow_iff :
    (∀ (es : List Expr) (context : AnalyzeContext),
      Expr.cost (.intersection es) context = .slow ↔ ∀ e ∈ es, e.cost context = .slow)
    ∧ (∀ context : AnalyzeContext, Expr.cost (.intersection []) context = .slow) := by
  constructor
  · intro es context
    simp [Expr.cost]
    exact all_cost_slow_iff es context
  · intro context
    simp [Expr.cost, all_cost_slow]

/-- Claim C10: a `Predicate`'s cost is the wrapped expression's cost under
Predicate context when it is a `Set`, and Fast for every other variant and
every ambient context. -/
theorem predicate_cost_spec :
    (∀ (e : Expr) (context : AnalyzeContext),
      Predicate.cost (.set e) context = e.cost .predicate)
    ∧ (∀ (f : RevsetFilterPredicate) (context : AnalyzeContext),
      Predicate.cost (.filter f) context = .fast)
    ∧ (∀ (e : Expr) (context : AnalyzeContext),
      Predicate.cost (.divergent e) context = .fast)
    ∧ (∀ (p : Predicate) (context : AnalyzeContext),
      Predicate.cost (.notIn p) context = .fast)
    ∧ (∀ (ps : List Predicate) (context : AnalyzeContext),
      Predicate.cost (.union ps) context = .fast)
    ∧ (∀ (ps : List Predicate) (context : AnalyzeContext),
      Predicate.cost (.intersection ps) context = .fast) := by
  refine ⟨?_, ?_, ?_, ?_, ?_, ?_⟩ <;> intros <;> rfl

/-- Claim C8: a `DagRange` entry's effective context is the ambient context
with Predicate downgraded to Lazy when the generation-from-roots range is
exactly [1, 2), and forced Eager for every other range; its roots and heads
children are always handed Eager context. -/
theorem dag_range_entry_spec (rt hd : Expr) (gfr : NatRange) (context : AnalyzeContext) :
    ((Expr.entry (.dagRange rt hd gfr) context).context =
      if gfr = ⟨1, 2⟩ then context.predicate_to_lazy else .eager)
    ∧ ((Expr.entry (.dagRange rt hd gfr) context).children =
      (if gfr = GENERATION_RANGE_FULL then []
       else [⟨Option.some "generation_from_roots", context, .ofGenRange gfr⟩])
      ++ [⟨Option.some "roots", .eager, .ofExpr rt⟩,
          ⟨Option.some "heads", .eager, .ofExpr hd⟩]) := by
  constructor
  · simp [Expr.entry]
  · by_cases h : gfr = GENERATION_RANGE_FULL <;> simp [Expr.entry, only_present, h]

/-- Claim C9: canonical predicate text.  A parent-count filter over exactly
[2, u32::MAX) renders as merges() and any other parent-count range as
parent_count(range); a file filter over the universal fileset renders as
~empty() standing alone and as empty() under `NotIn`; has-conflict and
is-signed render as conflicts() and signed(); `NotIn` of any other single
atomic filter collapses to a ~-prefixed string with no children, and `NotIn`
of a non-filter renders as an explicit `NotIn` wrapper node around its
child. -/
theorem predicate_canonical_text :
    (∀ (r : NatRange) (context : AnalyzeContext),
        (Predicate.entry (.filter (.parentCount r)) context).name =
          (if r = ⟨2, u32Max⟩ then "merges()"
           else "parent_count(" ++ (format_range r PARENTS_RANGE_FULL).getD "" ++ ")")
        ∧ (Predicate.entry (.filter (.parentCount r)) context).children = [])
    ∧ (∀ context : AnalyzeContext,
        (Predicate.entry (.filter (.file .all)) context).name = "~empty()"
        ∧ (Predicate.entry (.filter (.file .all)) context).children = [])
    ∧ (∀ context : AnalyzeContext,
        (Predicate.entry (.notIn (.filter (.file .all))) context).name = "empty()"
        ∧ (Predicate.entry (.notIn (.filter (.file .all))) context).children = [])
    ∧ (∀ context : AnalyzeContext,
        (Predicate.entry (.filter .hasConflict) context).name = "conflicts()")
    ∧ (∀ context : AnalyzeContext,
        (Predicate.entry (.filter .signed) context).name = "signed()")
    ∧ (∀ (f : RevsetFilterPredicate) (context : AnalyzeContext),
        f ≠ .file .all →
        (Predicate.entry (.notIn (.filter f)) context).name = "~" ++ filter_to_string f
        ∧ (Predicate.entry (.notIn (.filter f)) context).children = [])
    ∧ (∀ (p : Predicate) (context : AnalyzeContext),
        (∀ f, p ≠ .filter f) →
        (Predicate.entry (.notIn p) context).name = "NotIn"
        ∧ (Predicate.entry (.notIn p) context).children =
            [⟨Option.none, .predicate, .ofPredicate p⟩]) := by
  refine ⟨?_, ?_, ?_, ?_, ?_, ?_, ?_⟩
  · intro r context
    exact ⟨rfl, rfl⟩
  · intro context
    exact ⟨rfl, rfl⟩
  · intro context
    exact ⟨rfl, rfl⟩
  · intro context
    rfl
  · intro context
    rfl
  · intro f context hne
    cases f
    case file files =>
      cases files <;> simp_all <;> exact ⟨rfl, rfl⟩
    all_goals exact ⟨rfl, rfl⟩
  · intro p context hne
    cases p
    case filter f => exact absurd rfl (hne f)
    all_goals exact ⟨rfl, rfl⟩

/-- Witness for C9 at concrete inputs: `NotIn` of has-conflict collapses to
the tilde-prefixed leaf, and `NotIn` of a non-filter is a wrapper node. -/
theorem predicate_canonical_text_witness :
    ((Predicate.entry (.notIn (.filter .hasConflict)) .eager).name = "~conflicts()"
      ∧ (Predicate.entry (.notIn (.filter .hasConflict)) .eager).children = [])
    ∧ ((Predicate.entry (.notIn (.union [])) .lazy).name = "NotIn"
      ∧ (Predicate.entry (.notIn (.union [])) .lazy).children =
          [⟨Option.none, .predicate, .ofPredicate (.union [])⟩]) := by
  constructor
  · have h := predicate_canonical_text.2.2.2.2.2.1 RevsetFilterPredicate.hasConflict
      AnalyzeContext.eager (by intro h; cases h)
    exact h
  · exact predicate_canonical_text.2.2.2.2.2.2 (.union []) AnalyzeContext.lazy
      (fun f h => by cases h)

/-- Claim C2: importing an external literal commit set yields `None` when
empty, a single `Reference` when a singleton (even when that sole element is
the visible-heads constant, whose display text is then rendered), the single
visible-heads-or-referenced `Reference` when (with two or more elements) any
element's reference equals the visible-heads constant, and otherwise an
unlabeled `Union` of one `Reference` per element in order. -/
theorem commits_import_cases (get : Nat → ResolvedReference) :
    (Expr.parse get (.commits []) = .none)
    ∧ (∀ i, Expr.parse get (.commits [i]) = .reference (get i))
    ∧ (∀ ids, 2 ≤ ids.length →
        ids.any (fun i => get i == ResolvedReference.visible_heads) = true →
        Expr.parse get (.commits ids) = .reference ResolvedReference.visible_heads_or_referenced)
    ∧ (∀ ids, 2 ≤ ids.length →
        ids.any (fun i => get i == ResolvedReference.visible_heads) = false →
        Expr.parse get (.commits ids) = .union (ids.map fun i => Expr.reference (get i)))
    ∧ (∀ (i : Nat) (context : AnalyzeContext), get i = ResolvedReference.visible_heads →
        (Expr.entry (Expr.parse get (.commits [i])) context).name =
          ResolvedReference.visible_heads) := by
  refine ⟨?_, ?_, ?_, ?_, ?_⟩
  · simp [Expr.parse]
  · intro i
    simp [Expr.parse]
  · intro ids hlen hany
    match ids, hlen with
    | a :: b :: rest, _ => simp [Expr.parse, hany]
  · intro ids hlen hany
    match ids, hlen with
    | a :: b :: rest, _ => simp [Expr.parse, hany]
  · intro i context hvh
    simp [Expr.parse, hvh, Expr.entry, ResolvedReference.entry]

/-- Witness for C2 at a concrete reference lookup: a two-element literal set
containing the visible-heads constant collapses, and a singleton set of the
visible-heads constant renders the visible-heads display text. -/
theorem commits_import_cases_witness :
    (Expr.parse (fun i => if i = 0 then "visible_heads()" else "r") (.commits [0, 1]) =
      .reference ResolvedReference.visible_heads_or_referenced)
    ∧ ((Expr.entry
          (Expr.parse (fun i => if i = 0 then "visible_heads()" else "r") (.commits [0]))
          .lazy).name = ResolvedReference.visible_heads) := by
  constructor
  · exact (commits_import_cases (fun i => if i = 0 then "visible_heads()" else "r")).2.2.1
      [0, 1] (by simp) (by decide)
  · exact (commits_import_cases (fun i => if i = 0 then "visible_heads()" else "r")).2.2.2.2
      0 .lazy (by decide)

theorem get_index_of_eq_none_iff (l : List ResolvedReference) (r : ResolvedReference) :
    get_index_of l r = Option.none ↔ r ∉ l := by
  induction l with
  | nil => simp [get_index_of]
  | cons x rest ih =>
    by_cases h : x = r
    · simp [get_index_of, h]
    · have h' : ¬r = x := fun hh => h hh.symm
      simp [get_index_of, h, Option.map_eq_none', ih, h']

theorem get_index_of_append_self (l : List ResolvedReference) (r : ResolvedReference)
    (h : r ∉ l) : get_index_of (l ++ [r]) r = Option.some l.length := by
  induction l with
  | nil => simp [get_index_of]
  | cons x rest ih =>
    have hx : x ≠ r := fun hh => h (hh ▸ List.mem_cons_self x rest)
    have hr : r ∉ rest := fun hh => h (List.mem_cons_of_mem x hh)
    simp [get_index_of, hx, ih hr]

theorem insertAll_fresh (rs : List ResolvedReference) :
    ∀ m : ReferenceMap, rs.Nodup → (∀ r ∈ rs, r ∉ m.references) →
      m.insertAll rs = (List.range' m.references.length rs.length, ⟨m.references ++ rs⟩) := by
  induction rs with
  | nil =>
    intro m _ _
    simp [ReferenceMap.insertAll, List.range']
  | cons r rest ih =>
    intro m hnd hfresh
    have hnotin : r ∉ m.references := hfresh r (List.mem_cons_self r rest)
    have hnone : get_index_of m.references r = Option.none :=
      (get_index_of_eq_none_iff _ _).mpr hnotin
    have hstep : m.insert r = (m.references.length, ⟨m.references ++ [r]⟩) := by
      simp [ReferenceMap.insert, hnone]
    have hrest : ∀ x ∈ rest, x ∉ (ReferenceMap.mk (m.references ++ [r])).references := by
      intro x hx
      simp only [List.mem_append, List.mem_singleton]
      rintro (hin | hxr)
      · exact hfresh x (List.mem_cons_of_mem r hx) hin
      · exact (List.nodup_cons.mp hnd).1 (hxr ▸ hx)
    simp only [ReferenceMap.insertAll, hstep]
    rw [ih ⟨m.references ++ [r]⟩ (List.nodup_cons.mp hnd).2 hrest]
    simp [List.range'_succ, List.append_assoc]

/-- Claim C7: the reference table deduplicates by value — inserting a
reference already present returns the identifier of the existing entry and
leaves the table unchanged (so inserting the same text twice yields the same
identifier), and inserting pairwise-distinct references from an empty table
yields the dense identifiers 0, 1, 2, ... in first-insertion order. -/
theorem reference_map_insert_spec :
    (∀ (m : ReferenceMap) (r : ResolvedReference) (i : Nat),
        get_index_of m.references r = Option.some i → m.insert r = (i, m))
    ∧ (∀ (m : ReferenceMap) (r : ResolvedReference),
        (m.insert r).2.insert r = m.insert r)
    ∧ (∀ rs : List ResolvedReference, rs.Nodup →
        ReferenceMap.insertAll ⟨[]⟩ rs = (List.range rs.length, ⟨rs⟩)) := by
  refine ⟨?_, ?_, ?_⟩
  · intro m r i h
    simp [ReferenceMap.insert, h]
  · intro m r
    cases hg : get_index_of m.references r with
    | some i => simp [ReferenceMap.insert, hg]
    | none =>
      have h2 : get_index_of (m.references ++ [r]) r = Option.some m.references.length :=
        get_index_of_append_self _ _ ((get_index_of_eq_none_iff _ _).mp hg)
      simp [ReferenceMap.insert, hg, h2]
  · intro rs hnd
    have h := insertAll_fresh rs ⟨[]⟩ hnd (by simp)
    simpa [List.range_eq_range'] using h

/-- Witness for C7 at concrete inputs: re-inserting "b" returns its existing
identifier 1 unchanged, and inserting three distinct references yields the
identifiers 0, 1, 2. -/
theorem reference_map_insert_spec_witness :
    (ReferenceMap.insert ⟨["a", "b"]⟩ "b" = (1, ⟨["a", "b"]⟩))
    ∧ (ReferenceMap.insertAll ⟨[]⟩ ["x", "y", "z"] = ([0, 1, 2], ⟨["x", "y", "z"]⟩)) := by
  constructor
  · exact reference_map_insert_spec.1 ⟨["a", "b"]⟩ "b" 1 (by decide)
  · have h := reference_map_insert_spec.2.2 ["x", "y", "z"] (by decide)
    simpa using h

theorem exprs_flatOk_iff (l : List Expr) :
    exprs_flatOk l = true ↔ ∀ x ∈ l, x.flatOk = true := by
  induction l with
  | nil => simp [exprs_flatOk]
  | cons e rest ih => simp [exprs_flatOk, ih]

theorem preds_flatOk_iff (l : List Predicate) :
    preds_flatOk l = true ↔ ∀ x ∈ l, x.flatOk = true := by
  induction l with
  | nil => simp [preds_flatOk]
  | cons p rest ih => simp [preds_flatOk, ih]

/-- The import of a literal commit set that contains the visible-heads
marker is never a `Union` (it collapses to a single reference). -/
theorem parse_commits_not_union (get : Nat → ResolvedReference) (ids : List Nat)
    (h : ids.any (fun i => get i == ResolvedReference.visible_heads) = true) :
    (Expr.parse get (.commits ids)).is_union = false := by
  match ids with
  | [] => simp at h
  | [i] => simp [Expr.parse, Expr.is_union]
  | a :: b :: rest => simp [Expr.parse, h, Expr.is_union]

/-- The import of an external node that is neither a `Union` nor a literal
commit set is never a `Union`. -/
theorem parse_not_union_of_shape (get : Nat → ResolvedReference) (e : ResolvedExpression)
    (hu : ∀ a b, e ≠ .union a b) (hc : ∀ ids, e ≠ .commits ids) :
    (Expr.parse get e).is_union = false := by
  cases e
  case union a b => exact absurd rfl (hu a b)
  case commits ids => exact absurd rfl (hc ids)
  case headsRange rts hds pr fil => cases fil <;> simp [Expr.parse, Expr.is_union]
  all_goals simp [Expr.parse, Expr.is_union]

/-- The import of an external node that is not an `Intersection` is never an
`Intersection`. -/
theorem parse_not_intersection_of_shape (get : Nat → ResolvedReference)
    (e : ResolvedExpression) (hi : ∀ a b, e ≠ .intersection a b) :
    (Expr.parse get e).is_intersection = false := by
  cases e
  case intersection a b => exact absurd rfl (hi a b)
  case commits ids =>
    match ids with
    | [] => simp [Expr.parse, Expr.is_intersection]
    | [i] => simp [Expr.parse, Expr.is_intersection]
    | a :: b :: rest =>
      simp only [Expr.parse]
      split <;> simp [Expr.is_intersection]
  case headsRange rts hds pr fil => cases fil <;> simp [Expr.parse, Expr.is_intersection]
  all_goals simp [Expr.parse, Expr.is_intersection]

/-- The import of an external node that is not a `Coalesce` is never a
`Coalesce`. -/
theorem parse_not_coalesce_of_shape (get : Nat → ResolvedReference)
    (e : ResolvedExpression) (hc : ∀ a b, e ≠ .coalesce a b) :
    (Expr.parse get e).is_coalesce = false := by
  cases e
  case coalesce a b => exact absurd rfl (hc a b)
  case commits ids =>
    match ids with
    | [] => simp [Expr.parse, Expr.is_coalesce]
    | [i] => simp [Expr.parse, Expr.is_coalesce]
    | a :: b :: rest =>
      simp only [Expr.parse]
      split <;> simp [Expr.is_coalesce]
  case headsRange rts hds pr fil => cases fil <;> simp [Expr.parse, Expr.is_coalesce]
  all_goals simp [Expr.parse, Expr.is_coalesce]

/-- The import of an external predicate that is not a `Union` is never a
predicate `Union`. -/
theorem predicate_parse_not_union_of_shape (get : Nat → ResolvedReference)
    (p : ResolvedPredicateExpression) (hu : ∀ a b, p ≠ .union a b) :
    (Predicate.parse get p).is_union = false := by
  cases p
  case union a b => exact absurd rfl (hu a b)
  all_goals simp [Predicate.parse, Predicate.is_union]

/-- The import of an external predicate that is not an `Intersection` is
never a predicate `Intersection`. -/
theorem predicate_parse_not_intersection_of_shape (get : Nat → ResolvedReference)
    (p : ResolvedPredicateExpression) (hi : ∀ a b, p ≠ .intersection a b) :
    (Predicate.parse get p).is_intersection = false := by
  cases p
  case intersection a b => exact absurd rfl (hi a b)
  all_goals simp [Predicate.parse, Predicate.is_intersection]

/-- Each predicate produced by `wrap_set_elements` of a flat expression is
flat and is not a predicate `Union`. -/
theorem wrap_set_elements_ok (e : Expr) (he : e.flatOk = true) :
    ∀ x ∈ wrap_set_elements e, x.flatOk = true ∧ x.is_union = false := by
  intro x hx
  cases e
  case union exprs =>
    simp only [wrap_set_elements, List.mem_map] at hx
    obtain ⟨y, hy, rfl⟩ := hx
    have hy' : y.flatOk = true := by
      simp [Expr.flatOk, exprs_flatOk_iff] at he
      exact he.2 y hy
    exact ⟨by simpa [Predicate.flatOk] using hy', rfl⟩
  all_goals
    simp only [wrap_set_elements, List.mem_singleton] at hx
  all_goals subst hx
  all_goals exact ⟨by simpa [Predicate.flatOk] using he, rfl⟩

set_option maxHeartbeats 2000000 in
mutual

/-- Every imported expression satisfies the flatness invariant. -/
theorem parse_flatOk (get : Nat → ResolvedReference) (e : ResolvedExpression) :
    (Expr.parse get e).flatOk = true := by
  cases e
  case commits ids =>
    match ids with
    | [] => simp [Expr.parse, Expr.flatOk]
    | [i] => simp [Expr.parse, Expr.flatOk]
    | a :: b :: rest =>
      simp only [Expr.parse]
      split
      · simp [Expr.flatOk]
      · simp only [Expr.flatOk, Bool.and_eq_true, List.all_eq_true, exprs_flatOk_iff]
        constructor
        · intro x hx
          obtain ⟨i, hi, rfl⟩ := List.mem_map.mp hx
          simp [Expr.is_union]
        · intro x hx
          obtain ⟨i, hi, rfl⟩ := List.mem_map.mp hx
          simp [Expr.flatOk]
  case ancestors hds g p =>
    simp [Expr.parse, Expr.flatOk, parse_flatOk get hds]
  case range rts hds g p =>
    simp [Expr.parse, Expr.flatOk, parse_flatOk get rts, parse_flatOk get hds]
  case dagRange rts hds g =>
    simp [Expr.parse, Expr.flatOk, parse_flatOk get rts, parse_flatOk get hds]
  case reachable sources domain =>
    simp [Expr.parse, Expr.flatOk, parse_flatOk get sources, parse_flatOk get domain]
  case heads e => simp [Expr.parse, Expr.flatOk, parse_flatOk get e]
  case headsRange rts hds pr fil =>
    cases fil with
    | none => simp [Expr.parse, Expr.flatOk, parse_flatOk get rts, parse_flatOk get hds]
    | some p =>
      simp [Expr.parse, Expr.flatOk, parse_flatOk get rts, parse_flatOk get hds,
        predicate_parse_flatOk get p]
  case roots e => simp [Expr.parse, Expr.flatOk, parse_flatOk get e]
  case forkPoint e => simp [Expr.parse, Expr.flatOk, parse_flatOk get e]
  case bisect e => simp [Expr.parse, Expr.flatOk, parse_flatOk get e]
  case hasSize c n => simp [Expr.parse, Expr.flatOk, parse_flatOk get c]
  case latest c n => simp [Expr.parse, Expr.flatOk, parse_flatOk get c]
  case coalesce a b =>
    have h := coalesce_flatten_ok get [a, b]
    simp only [Expr.parse, Expr.flatOk, Bool.and_eq_true, List.all_eq_true, exprs_flatOk_iff]
    constructor
    · intro x hx
      simp [(h x hx).2]
    · intro x hx
      exact (h x hx).1
  case union a b =>
    have h := union_flatten_ok get [a, b]
    simp only [Expr.parse, Expr.flatOk, Bool.and_eq_true, List.all_eq_true, exprs_flatOk_iff]
    constructor
    · intro x hx
      simp [(h x hx).2]
    · intro x hx
      exact (h x hx).1
  case filterWithin c p =>
    simp [Expr.parse, Expr.flatOk, parse_flatOk get c, predicate_parse_flatOk get p]
  case intersection a b =>
    have h := intersection_flatten_ok get [a, b]
    simp only [Expr.parse, Expr.flatOk, Bool.and_eq_true, List.all_eq_true, exprs_flatOk_iff]
    constructor
    · intro x hx
      simp [(h x hx).2]
    · intro x hx
      exact (h x hx).1
  case difference a b =>
    simp [Expr.parse, Expr.flatOk, parse_flatOk get a, parse_flatOk get b]
termination_by 10 * e.sz
decreasing_by all_goals
  (simp_wf; try simp [stack_weight, pred_stack_weight, ResolvedExpression.sz,
    ResolvedPredicateExpression.sz]; try omega)

/-- Every imported predicate satisfies the flatness invariant. -/
theorem predicate_parse_flatOk (get : Nat → ResolvedReference)
    (p : ResolvedPredicateExpression) : (Predicate.parse get p).flatOk = true := by
  cases p
  case filter f => simp [Predicate.parse, Predicate.flatOk]
  case divergent ids =>
    simp [Predicate.parse, Predicate.flatOk, parse_flatOk get (.commits ids)]
  case set e => simp [Predicate.parse, Predicate.flatOk, parse_flatOk get e]
  case notIn q => simp [Predicate.parse, Predicate.flatOk, predicate_parse_flatOk get q]
  case union a b =>
    have h := predicate_union_flatten_ok get [a, b]
    simp only [Predicate.parse, Predicate.flatOk, Bool.and_eq_true, List.all_eq_true,
      preds_flatOk_iff]
    constructor
    · intro x hx
      simp [(h x hx).2]
    · intro x hx
      exact (h x hx).1
  case intersection a b =>
    have h := predicate_intersection_flatten_ok get [a, b]
    simp only [Predicate.parse, Predicate.flatOk, Bool.and_eq_true, List.all_eq_true,
      preds_flatOk_iff]
    constructor
    · intro x hx
      simp [(h x hx).2]
    · intro x hx
      exact (h x hx).1
termination_by 10 * p.sz + 1
decreasing_by all_goals
  (simp_wf; try simp [stack_weight, pred_stack_weight, ResolvedExpression.sz,
    ResolvedPredicateExpression.sz]; try omega)

/-- Every element produced by the `Coalesce` flattening loop is flat and is
not itself a `Coalesce`. -/
theorem coalesce_flatten_ok (get : Nat → ResolvedReference)
    (stack : List ResolvedExpression) :
    ∀ x ∈ coalesce_flatten get stack, x.flatOk = true ∧ x.is_coalesce = false := by
  cases stack with
  | nil =>
    intro x hx
    simp [coalesce_flatten] at hx
  | cons next rest =>
    cases next
    case coalesce a b =>
      intro x hx
      simp only [coalesce_flatten] at hx
      exact coalesce_flatten_ok get (a :: b :: rest) x hx
    all_goals
      intro x hx
      simp only [coalesce_flatten] at hx
      rcases List.mem_cons.mp hx with rfl | hx'
      · exact ⟨parse_flatOk get _, parse_not_coalesce_of_shape get _ (fun a b h => by cases h)⟩
      · exact coalesce_flatten_ok get rest x hx'
termination_by stack_weight stack + 1
decreasing_by all_goals
  (simp_wf; try simp [stack_weight, pred_stack_weight, ResolvedExpression.sz,
    ResolvedPredicateExpression.sz]; try omega)

/-- Every element produced by the `Union` flattening loop is flat and is not
itself a `Union`. -/
theorem union_flatten_ok (get : Nat → ResolvedReference)
    (stack : List ResolvedExpression) :
    ∀ x ∈ union_flatten get stack, x.flatOk = true ∧ x.is_union = false := by
  cases stack with
  | nil =>
    intro x hx
    simp [union_flatten] at hx
  | cons next rest =>
    cases next
    case union a b =>
      intro x hx
      simp only [union_flatten] at hx
      exact union_flatten_ok get (a :: b :: rest) x hx
    case commits ids =>
      intro x hx
      simp only [union_flatten] at hx
      by_cases hany : ids.any (fun i => get i == ResolvedReference.visible_heads) = true
      · simp only [hany, Bool.not_true, Bool.false_eq_true, if_false] at hx
        rcases List.mem_cons.mp hx with rfl | hx'
        · exact ⟨parse_flatOk get _, parse_commits_not_union get ids hany⟩
        · exact union_flatten_ok get rest x hx'
      · have hany' : ids.any (fun i => get i == ResolvedReference.visible_heads) = false :=
          Bool.eq_false_iff.mpr hany
        simp only [hany', Bool.not_false, if_true] at hx
        rcases List.mem_append.mp hx with hm | hx'
        · obtain ⟨i, hi, rfl⟩ := List.mem_map.mp hm
          exact ⟨by simp [Expr.flatOk], by simp [Expr.is_union]⟩
        · exact union_flatten_ok get rest x hx'
    all_goals
      intro x hx
      simp only [union_flatten] at hx
      rcases List.mem_cons.mp hx with rfl | hx'
      · exact ⟨parse_flatOk get _,
          parse_not_union_of_shape get _ (fun a b h => by cases h) (fun ids h => by cases h)⟩
      · exact union_flatten_ok get rest x hx'
termination_by stack_weight stack + 1
decreasing_by all_goals
  (simp_wf; try simp [stack_weight, pred_stack_weight, ResolvedExpression.sz,
    ResolvedPredicateExpression.sz]; try omega)

/-- Every element produced by the `Intersection` flattening loop is flat and
is not itself an `Intersection`. -/
theorem intersection_flatten_ok (get : Nat → ResolvedReference)
    (stack : List ResolvedExpression) :
    ∀ x ∈ intersection_flatten get stack, x.flatOk = true ∧ x.is_intersection = false := by
  cases stack with
  | nil =>
    intro x hx
    simp [intersection_flatten] at hx
  | cons next rest =>
    cases next
    case intersection a b =>
      intro x hx
      simp only [intersection_flatten] at hx
      exact intersection_flatten_ok get (a :: b :: rest) x hx
    all_goals
      intro x hx
      simp only [intersection_flatten] at hx
      rcases List.mem_cons.mp hx with rfl | hx'
      · exact ⟨parse_flatOk get _,
          parse_not_intersection_of_shape get _ (fun a b h => by cases h)⟩
      · exact intersection_flatten_ok get rest x hx'
termination_by stack_weight stack + 1
decreasing_by all_goals
  (simp_wf; try simp [stack_weight, pred_stack_weight, ResolvedExpression.sz,
    ResolvedPredicateExpression.sz]; try omega)

/-- Every element produced by the predicate `Union` flattening loop is flat
and is not itself a predicate `Union`. -/
theorem predicate_union_flatten_ok (get : Nat → ResolvedReference)
    (stack : List ResolvedPredicateExpression) :
    ∀ x ∈ predicate_union_flatten get stack, x.flatOk = true ∧ x.is_union = false := by
  cases stack with
  | nil =>
    intro x hx
    simp [predicate_union_flatten] at hx
  | cons next rest =>
    cases next
    case union a b =>
      intro x hx
      simp only [predicate_union_flatten] at hx
      exact predicate_union_flatten_ok get (a :: b :: rest) x hx
    case set s =>
      intro x hx
      simp only [predicate_union_flatten] at hx
      rcases List.mem_append.mp hx with hm | hx'
      · exact wrap_set_elements_ok (Expr.parse get s) (parse_flatOk get s) x hm
      · exact predicate_union_flatten_ok get rest x hx'
    all_goals
      intro x hx
      simp only [predicate_union_flatten] at hx
      rcases List.mem_cons.mp hx with rfl | hx'
      · exact ⟨predicate_parse_flatOk get _,
          predicate_parse_not_union_of_shape get _ (fun a b h => by cases h)⟩
      · exact predicate_union_flatten_ok get rest x hx'
termination_by pred_stack_weight stack + 1
decreasing_by all_goals
  (simp_wf; try simp [stack_weight, pred_stack_weight, ResolvedExpression.sz,
    ResolvedPredicateExpression.sz]; try omega)

/-- Every element produced by the predicate `Intersection` flattening loop
is flat and is not itself a predicate `Intersection`. -/
theorem predicate_intersection_flatten_ok (get : Nat → ResolvedReference)
    (stack : List ResolvedPredicateExpression) :
    ∀ x ∈ predicate_intersection_flatten get stack,
      x.flatOk = true ∧ x.is_intersection = false := by
  cases stack with
  | nil =>
    intro x hx
    simp [predicate_intersection_flatten] at hx
  | cons next rest =>
    cases next
    case intersection a b =>
      intro x hx
      simp only [predicate_intersection_flatten] at hx
      exact predicate_intersection_flatten_ok get (a :: b :: rest) x hx
    all_goals
      intro x hx
      simp only [predicate_intersection_flatten] at hx
      rcases List.mem_cons.mp hx with rfl | hx'
      · exact ⟨predicate_parse_flatOk get _,
          predicate_parse_not_intersection_of_shape get _ (fun a b h => by cases h)⟩
      · exact predicate_intersection_flatten_ok get rest x hx'
termination_by pred_stack_weight stack + 1
decreasing_by all_goals
  (simp_wf; try simp [stack_weight, pred_stack_weight, ResolvedExpression.sz,
    ResolvedPredicateExpression.sz]; try omega)

end

/-- Claim C3: for every external input tree, the `Expr` and `Predicate`
trees produced by import satisfy the flatness invariant — no `Union`,
`Intersection` or `Coalesce` node directly contains a child of its own
variant, at both the expression and the predicate level. -/
theorem import_flatness_invariant :
    (∀ (get : Nat → ResolvedReference) (e : ResolvedExpression),
      (Expr.parse get e).flatOk = true)
    ∧ (∀ (get : Nat → ResolvedReference) (p : ResolvedPredicateExpression),
      (Predicate.parse get p).flatOk = true) :=
  ⟨parse_flatOk, predicate_parse_flatOk⟩

/-! Machinery for the flattening-associativity claim: the flattening loops
distribute over work-stack concatenation, so the flat list produced from any
nesting is the concatenation of the per-leaf expansions. -/

theorem union_flatten_append (get : Nat → ResolvedReference)
    (s₁ s₂ : List ResolvedExpression) :
    union_flatten get (s₁ ++ s₂) = union_flatten get s₁ ++ union_flatten get s₂ := by
  cases s₁ with
  | nil => simp [union_flatten]
  | cons next rest =>
    cases next
    case union a b =>
      have ih := union_flatten_append get (a :: b :: rest) s₂
      simp only [List.cons_append] at ih ⊢
      rw [union_flatten, union_flatten]
      exact ih
    case commits ids =>
      have ih := union_flatten_append get rest s₂
      simp only [List.cons_append]
      rw [union_flatten, union_flatten]
      split <;> simp [ih]
    all_goals
      have ih := union_flatten_append get rest s₂
      simp only [List.cons_append]
      simp [union_flatten, ih]
termination_by stack_weight s₁ + 1
decreasing_by all_goals
  (simp_wf; try simp [stack_weight, ResolvedExpression.sz]; try omega)

theorem coalesce_flatten_append (get : Nat → ResolvedReference)
    (s₁ s₂ : List ResolvedExpression) :
    coalesce_flatten get (s₁ ++ s₂) = coalesce_flatten get s₁ ++ coalesce_flatten get s₂ := by
  cases s₁ with
  | nil => simp [coalesce_flatten]
  | cons next rest =>
    cases next
    case coalesce a b =>
      have ih := coalesce_flatten_append get (a :: b :: rest) s₂
      simp only [List.cons_append] at ih ⊢
      rw [coalesce_flatten, coalesce_flatten]
      exact ih
    all_goals
      have ih := coalesce_flatten_append get rest s₂
      simp only [List.cons_append]
      simp [coalesce_flatten, ih]
termination_by stack_weight s₁ + 1
decreasing_by all_goals
  (simp_wf; try simp [stack_weight, ResolvedExpression.sz]; try omega)

theorem intersection_flatten_append (get : Nat → ResolvedReference)
    (s₁ s₂ : List ResolvedExpression) :
    intersection_flatten get (s₁ ++ s₂) =
      intersection_flatten get s₁ ++ intersection_flatten get s₂ := by
  cases s₁ with
  | nil => simp [intersection_flatten]
  | cons next rest =>
    cases next
    case intersection a b =>
      have ih := intersection_flatten_append get (a :: b :: rest) s₂
      simp only [List.cons_append] at ih ⊢
      rw [intersection_flatten, intersection_flatten]
      exact ih
    all_goals
      have ih := intersection_flatten_append get rest s₂
      simp only [List.cons_append]
      simp [intersection_flatten, ih]
termination_by stack_weight s₁ + 1
decreasing_by all_goals
  (simp_wf; try simp [stack_weight, ResolvedExpression.sz]; try omega)

/-- Per-leaf expansion of a `Union` operand sequence: concatenation of the
flattening of each operand alone. -/
def union_leaf_concat (get : Nat → ResolvedReference) : List ResolvedExpression → List Expr
  | [] => []
  | e :: rest => union_flatten get [e] ++ union_leaf_concat get rest

/-- Per-leaf expansion of a `Coalesce` operand sequence. -/
def coalesce_leaf_concat (get : Nat → ResolvedReference) : List ResolvedExpression → List Expr
  | [] => []
  | e :: rest => coalesce_flatten get [e] ++ coalesce_leaf_concat get rest

/-- Per-leaf expansion of an `Intersection` operand sequence. -/
def intersection_leaf_concat (get : Nat → ResolvedReference) :
    List ResolvedExpression → List Expr
  | [] => []
  | e :: rest => intersection_flatten get [e] ++ intersection_leaf_concat get rest

theorem union_leaf_concat_append (get : Nat → ResolvedReference)
    (l₁ l₂ : List ResolvedExpression) :
    union_leaf_concat get (l₁ ++ l₂) =
      union_leaf_concat get l₁ ++ union_leaf_concat get l₂ := by
  induction l₁ with
  | nil => simp [union_leaf_concat]
  | cons e rest ih => simp [union_leaf_concat, ih]

theorem coalesce_leaf_concat_append (get : Nat → ResolvedReference)
    (l₁ l₂ : List ResolvedExpression) :
    coalesce_leaf_concat get (l₁ ++ l₂) =
      coalesce_leaf_concat get l₁ ++ coalesce_leaf_concat get l₂ := by
  induction l₁ with
  | nil => simp [coalesce_leaf_concat]
  | cons e rest ih => simp [coalesce_leaf_concat, ih]

theorem intersection_leaf_concat_append (get : Nat → ResolvedReference)
    (l₁ l₂ : List ResolvedExpression) :
    intersection_leaf_concat get (l₁ ++ l₂) =
      intersection_leaf_concat get l₁ ++ intersection_leaf_concat get l₂ := by
  induction l₁ with
  | nil => simp [intersection_leaf_concat]
  | cons e rest ih => simp [intersection_leaf_concat, ih]

/-- A binary nesting shape over external operand leaves, used to state the
flattening-associativity claim: `toUnion` (resp. `toIntersection`,
`toCoalesce`) builds the corresponding nesting of binary external nodes. -/
inductive OpTree where
  | leaf (e : ResolvedExpression)
  | node (l r : OpTree)

/-- The nesting realized with binary external `Union` nodes. -/
def OpTree.toUnion : OpTree → ResolvedExpression
  | .leaf e => e
  | .node l r => .union l.toUnion r.toUnion

/-- The nesting realized with binary external `Intersection` nodes. -/
def OpTree.toIntersection : OpTree → ResolvedExpression
  | .leaf e => e
  | .node l r => .intersection l.toIntersection r.toIntersection

/-- The nesting realized with binary external `Coalesce` nodes. -/
def OpTree.toCoalesce : OpTree → ResolvedExpression
  | .leaf e => e
  | .node l r => .coalesce l.toCoalesce r.toCoalesce

/-- The left-to-right ordered sequence of operand leaves of a nesting. -/
def OpTree.leaves : OpTree → List ResolvedExpression
  | .leaf e => [e]
  | .node l r => l.leaves ++ r.leaves

/-- Whether the nesting has at least one binary node. -/
def OpTree.is_node : OpTree → Bool
  | .leaf _ => false
  | .node _ _ => true

theorem union_flatten_toUnion (get : Nat → ResolvedReference) (t : OpTree) :
    union_flatten get [t.toUnion] = union_leaf_concat get t.leaves := by
  induction t with
  | leaf e => simp [OpTree.toUnion, OpTree.leaves, union_leaf_concat]
  | node l r ihl ihr =>
    show union_flatten get [.union l.toUnion r.toUnion] = _
    rw [union_flatten]
    have h : (l.toUnion :: r.toUnion :: ([] : List ResolvedExpression)) =
        [l.toUnion] ++ [r.toUnion] := rfl
    rw [h, union_flatten_append, ihl, ihr, OpTree.leaves, union_leaf_concat_append]

theorem coalesce_flatten_toCoalesce (get : Nat → ResolvedReference) (t : OpTree) :
    coalesce_flatten get [t.toCoalesce] = coalesce_leaf_concat get t.leaves := by
  induction t with
  | leaf e => simp [OpTree.toCoalesce, OpTree.leaves, coalesce_leaf_concat]
  | node l r ihl ihr =>
    show coalesce_flatten get [.coalesce l.toCoalesce r.toCoalesce] = _
    rw [coalesce_flatten]
    have h : (l.toCoalesce :: r.toCoalesce :: ([] : List ResolvedExpression)) =
        [l.toCoalesce] ++ [r.toCoalesce] := rfl
    rw [h, coalesce_flatten_append, ihl, ihr, OpTree.leaves, coalesce_leaf_concat_append]

theorem intersection_flatten_toIntersection (get : Nat → ResolvedReference) (t : OpTree) :
    intersection_flatten get [t.toIntersection] = intersection_leaf_concat get t.leaves := by
  induction t with
  | leaf e => simp [OpTree.toIntersection, OpTree.leaves, intersection_leaf_concat]
  | node l r ihl ihr =>
    show intersection_flatten get [.intersection l.toIntersection r.toIntersection] = _
    rw [intersection_flatten]
    have h : (l.toIntersection :: r.toIntersection :: ([] : List ResolvedExpression)) =
        [l.toIntersection] ++ [r.toIntersection] := rfl
    rw [h, intersection_flatten_append, ihl, ihr, OpTree.leaves,
      intersection_leaf_concat_append]

theorem parse_toUnion_node (get : Nat → ResolvedReference) (l r : OpTree) :
    Expr.parse get (OpTree.node l r).toUnion =
      .union (union_leaf_concat get (OpTree.node l r).leaves) := by
  show Expr.parse get (.union l.toUnion r.toUnion) = _
  rw [Expr.parse]
  have h : ([l.toUnion, r.toUnion] : List ResolvedExpression) =
      [l.toUnion] ++ [r.toUnion] := rfl
  rw [h, union_flatten_append, union_flatten_toUnion, union_flatten_toUnion,
    OpTree.leaves, union_leaf_concat_append]

theorem parse_toCoalesce_node (get : Nat → ResolvedReference) (l r : OpTree) :
    Expr.parse get (OpTree.node l r).toCoalesce =
      .coalesce (coalesce_leaf_concat get (OpTree.node l r).leaves) := by
  show Expr.parse get (.coalesce l.toCoalesce r.toCoalesce) = _
  rw [Expr.parse]
  have h : ([l.toCoalesce, r.toCoalesce] : List ResolvedExpression) =
      [l.toCoalesce] ++ [r.toCoalesce] := rfl
  rw [h, coalesce_flatten_append, coalesce_flatten_toCoalesce, coalesce_flatten_toCoalesce,
    OpTree.leaves, coalesce_leaf_concat_append]

theorem parse_toIntersection_node (get : Nat → ResolvedReference) (l r : OpTree) :
    Expr.parse get (OpTree.node l r).toIntersection =
      .intersection (intersection_leaf_concat get (OpTree.node l r).leaves) := by
  show Expr.parse get (.intersection l.toIntersection r.toIntersection) = _
  rw [Expr.parse]
  have h : ([l.toIntersection, r.toIntersection] : List ResolvedExpression) =
      [l.toIntersection] ++ [r.toIntersection] := rfl
  rw [h, intersection_flatten_append, intersection_flatten_toIntersection,
    intersection_flatten_toIntersection, OpTree.leaves, intersection_leaf_concat_append]

/-- Claim C4: flattening is associativity-insensitive and order-preserving —
any two nestings of binary external `Union` (resp. `Intersection`,
`Coalesce`) nodes over the same left-to-right ordered sequence of
non-same-kind operand leaves flatten to the identical ordered list
of imported operands, and importing them gives identical results. -/
theorem flattening_associativity (get : Nat → ResolvedReference) :
    (∀ t₁ t₂ : OpTree, t₁.is_node = true → t₂.is_node = true →
      t₁.leaves = t₂.leaves →
      t₁.leaves.all (fun e => !e.is_union) = true →
      union_flatten get [t₁.toUnion] = union_flatten get [t₂.toUnion]
      ∧ Expr.parse get t₁.toUnion = Expr.parse get t₂.toUnion)
    ∧ (∀ t₁ t₂ : OpTree, t₁.is_node = true → t₂.is_node = true →
      t₁.leaves = t₂.leaves →
      t₁.leaves.all (fun e => !e.is_intersection) = true →
      intersection_flatten get [t₁.toIntersection] = intersection_flatten get [t₂.toIntersection]
      ∧ Expr.parse get t₁.toIntersection = Expr.parse get t₂.toIntersection)
    ∧ (∀ t₁ t₂ : OpTree, t₁.is_node = true → t₂.is_node = true →
      t₁.leaves = t₂.leaves →
      t₁.leaves.all (fun e => !e.is_coalesce) = true →
      coalesce_flatten get [t₁.toCoalesce] = coalesce_flatten get [t₂.toCoalesce]
      ∧ Expr.parse get t₁.toCoalesce = Expr.parse get t₂.toCoalesce) := by
  refine ⟨?_, ?_, ?_⟩
  · intro t₁ t₂ h1 h2 hleq hnk
    refine ⟨?_, ?_⟩
    · rw [union_flatten_toUnion, union_flatten_toUnion, hleq]
    · cases t₁ with
      | leaf e => simp [OpTree.is_node] at h1
      | node l₁ r₁ =>
        cases t₂ with
        | leaf e => simp [OpTree.is_node] at h2
        | node l₂ r₂ => rw [parse_toUnion_node, parse_toUnion_node, hleq]
  · intro t₁ t₂ h1 h2 hleq hnk
    refine ⟨?_, ?_⟩
    · rw [intersection_flatten_toIntersection, intersection_flatten_toIntersection, hleq]
    · cases t₁ with
      | leaf e => simp [OpTree.is_node] at h1
      | node l₁ r₁ =>
        cases t₂ with
        | leaf e => simp [OpTree.is_node] at h2
        | node l₂ r₂ => rw [parse_toIntersection_node, parse_toIntersection_node, hleq]
  · intro t₁ t₂ h1 h2 hleq hnk
    refine ⟨?_, ?_⟩
    · rw [coalesce_flatten_toCoalesce, coalesce_flatten_toCoalesce, hleq]
    · cases t₁ with
      | leaf e => simp [OpTree.is_node] at h1
      | node l₁ r₁ =>
        cases t₂ with
        | leaf e => simp [OpTree.is_node] at h2
        | node l₂ r₂ => rw [parse_toCoalesce_node, parse_toCoalesce_node, hleq]

/-- Witness for C4: a right-leaning and a left-leaning nesting of the same
three non-same-kind leaves import identically, for each of the three
associative operators. -/
theorem flattening_associativity_witness :
    (Expr.parse (fun _ => "x")
        (OpTree.toUnion (.node (.leaf (.commits [1]))
          (.node (.leaf (.commits [2, 3])) (.leaf (.heads (.commits [4])))))) =
      Expr.parse (fun _ => "x")
        (OpTree.toUnion (.node (.node (.leaf (.commits [1])) (.leaf (.commits [2, 3])))
          (.leaf (.heads (.commits [4]))))))
    ∧ (Expr.parse (fun _ => "x")
        (OpTree.toIntersection (.node (.leaf (.commits [1]))
          (.node (.leaf (.commits [2])) (.leaf (.commits [3]))))) =
      Expr.parse (fun _ => "x")
        (OpTree.toIntersection (.node (.node (.leaf (.commits [1])) (.leaf (.commits [2])))
          (.leaf (.commits [3])))))
    ∧ (Expr.parse (fun _ => "x")
        (OpTree.toCoalesce (.node (.leaf (.commits [1]))
          (.node (.leaf (.commits [2])) (.leaf (.commits [3]))))) =
      Expr.parse (fun _ => "x")
        (OpTree.toCoalesce (.node (.node (.leaf (.commits [1])) (.leaf (.commits [2])))
          (.leaf (.commits [3]))))) := by
  refine ⟨?_, ?_, ?_⟩
  · exact ((flattening_associativity (fun _ => "x")).1
      (.node (.leaf (.commits [1]))
        (.node (.leaf (.commits [2, 3])) (.leaf (.heads (.commits [4])))))
      (.node (.node (.leaf (.commits [1])) (.leaf (.commits [2, 3])))
        (.leaf (.heads (.commits [4]))))
      rfl rfl rfl rfl).2
  · exact ((flattening_associativity (fun _ => "x")).2.1
      (.node (.leaf (.commits [1])) (.node (.leaf (.commits [2])) (.leaf (.commits [3]))))
      (.node (.node (.leaf (.commits [1])) (.leaf (.commits [2]))) (.leaf (.commits [3])))
      rfl rfl rfl rfl).2
  · exact ((flattening_associativity (fun _ => "x")).2.2
      (.node (.leaf (.commits [1])) (.node (.leaf (.commits [2])) (.leaf (.commits [3]))))
      (.node (.node (.leaf (.commits [1])) (.leaf (.commits [2]))) (.leaf (.commits [3])))
      rfl rfl rfl rfl).2

end JjAnalyze
